import Mathlib

/-!
Verification of the morphological-comment-filtering repository (src/bert.py,
src/preprocess.py) against its natural-language specification.

Tensors are shallowly embedded as nested lists over `ℚ`:
a `[B, T, E]` tensor is a `List (List (List ℚ))`, a `[B, T]` tensor a
`List (List ℚ)`.  Since a `torch.sum` over an empty axis still knows the
embedding width `E` from the tensor's shape, reductions take `E` explicitly.
-/

/-- The all-zero vector of length `E` (e.g. one row of `torch.zeros`). -/
def zeroVec (E : ℕ) : List ℚ := List.replicate E 0

/-- Elementwise vector addition (same-shape tensors). -/
def addVec (u v : List ℚ) : List ℚ := List.zipWith (· + ·) u v

/-- Scalar-vector product `c * v`. -/
def smulVec (c : ℚ) (v : List ℚ) : List ℚ := v.map (fun x => c * x)

/-- Sum of a list of `E`-vectors, i.e. `torch.sum(t, dim=0)`. -/
def sumVecs (E : ℕ) (l : List (List ℚ)) : List ℚ := l.foldr addVec (zeroVec E)

/-- Forward pass of `MaskedMeanPooler` (src/bert.py:45-49); the pooler is constructed
with `dim=1`, so the sum runs over the sequence axis:
`masked_data = data * masks.unsqueeze(2)` (the mask value broadcast over the
embedding axis) followed by `torch.sum(masked_data, dim=1)`. -/
def maskedMeanPooler (E : ℕ) (data : List (List (List ℚ))) (masks : List (List ℚ)) :
    List (List ℚ) :=
  (List.zipWith
    (fun seq mrow => List.zipWith (fun emb mval => emb.map (fun x => x * mval)) seq mrow)
    data masks).map (sumVecs E)

theorem addVec_zeroVec (E : ℕ) : addVec (zeroVec E) (zeroVec E) = zeroVec E := by
  simp [addVec, zeroVec, List.zipWith_replicate]

theorem sumVecs_zeroRows (E : ℕ) (l : List (List ℚ)) (h : ∀ r ∈ l, r = zeroVec E) :
    sumVecs E l = zeroVec E := by
  induction l with
  | nil => rfl
  | cons a t ih =>
      have ha : a = zeroVec E := h a (by simp)
      have ht : sumVecs E t = zeroVec E := ih (fun r hr => h r (by simp [hr]))
      simp only [sumVecs, List.foldr_cons] at ht ⊢
      rw [ha, ht, addVec_zeroVec]

theorem map_mul_zero (v : List ℚ) : v.map (fun x => x * (0 : ℚ)) = zeroVec v.length := by
  induction v with
  | nil => rfl
  | cons a t ih =>
      simp only [zeroVec] at ih ⊢
      simp [List.replicate_succ, ih]

theorem map_mul_one (v : List ℚ) : v.map (fun x => x * (1 : ℚ)) = v := by
  induction v with
  | nil => rfl
  | cons a t ih => simp [ih]

theorem zipWith_left_of_length {α β : Type} (l : List α) (l' : List β)
    (h : l.length = l'.length) : List.zipWith (fun a _ => a) l l' = l := by
  induction l generalizing l' with
  | nil => simp
  | cons a t ih =>
      cases l' with
      | nil => simp at h
      | cons b t' =>
          simp only [List.length_cons, Nat.add_right_cancel_iff] at h
          simp [ih t' h]

theorem mem_zipWith_exists {α β γ : Type} {f : α → β → γ} {c : γ} :
    ∀ {l : List α} {l' : List β}, c ∈ List.zipWith f l l' →
      ∃ a b, a ∈ l ∧ b ∈ l' ∧ c = f a b
  | [], _, h => by simp at h
  | _ :: _, [], h => by simp at h
  | a :: t, b :: t', h => by
      simp only [List.zipWith_cons_cons, List.mem_cons] at h
      cases h with
      | inl h => exact ⟨a, b, by simp, by simp, h⟩
      | inr h =>
          obtain ⟨a', b', ha, hb, hc⟩ := mem_zipWith_exists h
          exact ⟨a', b', by simp [ha], by simp [hb], hc⟩

theorem rowMulComm : ∀ (seq : List (List ℚ)) (mrow : List ℚ),
    List.zipWith (fun emb mval => emb.map (fun x => x * mval)) seq mrow
      = List.zipWith smulVec mrow seq
  | [], _ => by simp
  | _ :: _, [] => by simp
  | emb :: seq, m :: mrow => by
      simp only [List.zipWith_cons_cons, rowMulComm seq mrow]
      congr 1
      simp only [smulVec]
      exact List.map_congr_left (fun a _ => mul_comm a m)

theorem maskedMeanPooler_eq (E : ℕ) :
    ∀ (data : List (List (List ℚ))) (masks : List (List ℚ)),
      maskedMeanPooler E data masks
        = List.zipWith (fun seq mrow => sumVecs E (List.zipWith smulVec mrow seq)) data masks
  | [], _ => rfl
  | _ :: _, [] => rfl
  | seq :: dtl, mrow :: mtl => by
      have ih := maskedMeanPooler_eq E dtl mtl
      simp only [maskedMeanPooler, List.zipWith_cons_cons, List.map_cons] at ih ⊢
      rw [rowMulComm, ih]

theorem maskedMeanPooler_zeroMask (E : ℕ) :
    ∀ (data : List (List (List ℚ))) (masks : List (List ℚ)),
      data.length = masks.length →
      (∀ seq ∈ data, ∀ emb ∈ seq, emb.length = E) →
      (∀ mrow ∈ masks, ∀ m ∈ mrow, m = (0 : ℚ)) →
      maskedMeanPooler E data masks = List.replicate data.length (zeroVec E)
  | [], _, _, _, _ => rfl
  | _ :: _, [], h, _, _ => by simp at h
  | seq :: dtl, mrow :: mtl, hlen, hE, hz => by
      have ih := maskedMeanPooler_zeroMask E dtl mtl (by simpa using hlen)
        (fun s hs emb hm => hE s (by simp [hs]) emb hm)
        (fun r hr m hm => hz r (by simp [hr]) m hm)
      simp only [maskedMeanPooler, List.zipWith_cons_cons, List.map_cons,
        List.length_cons, List.replicate_succ] at ih ⊢
      rw [ih]
      congr 1
      apply sumVecs_zeroRows
      intro r hr
      obtain ⟨emb, mval, hemb, hmval, hc⟩ := mem_zipWith_exists hr
      rw [hc, hz mrow (by simp) mval hmval, map_mul_zero,
        hE seq (by simp) emb hemb]

theorem maskedMeanPooler_onesMask (E : ℕ) :
    ∀ (data : List (List (List ℚ))) (masks : List (List ℚ)),
      List.Forall₂ (fun (seq : List (List ℚ)) (mrow : List ℚ) =>
        seq.length = mrow.length) data masks →
      (∀ mrow ∈ masks, ∀ m ∈ mrow, m = (1 : ℚ)) →
      maskedMeanPooler E data masks = data.map (sumVecs E)
  | [], _, _, _ => rfl
  | _ :: _, [], h, _ => by cases h
  | seq :: dtl, mrow :: mtl, h, ho => by
      obtain ⟨hsm, htl⟩ := List.forall₂_cons.1 h
      have ih := maskedMeanPooler_onesMask E dtl mtl htl
        (fun r hr m hm => ho r (by simp [hr]) m hm)
      simp only [maskedMeanPooler, List.zipWith_cons_cons, List.map_cons] at ih ⊢
      rw [ih]
      congr 1
      have hrw : List.zipWith (fun emb mval => emb.map (fun x => x * mval)) seq mrow
          = List.zipWith (fun emb _ => emb) seq mrow := by
        apply List.zipWith_congr
        apply List.forall₂_iff_zip.2
        refine ⟨hsm, ?_⟩
        intro a b hab
        rw [ho mrow (by simp) b (List.of_mem_zip hab).2, map_mul_one]
      rw [hrw, zipWith_left_of_length seq mrow hsm]

/-- Claim C1: `MaskedMeanPooler.forward` returns the masked sum: each
position's embedding is multiplied elementwise by its mask value and the
results are summed over the sequence axis, with no division by the
valid-token count; an all-zero mask yields the all-zero vector, and an
all-one mask yields the elementwise sum (not the average) of the sequence. -/
theorem maskedMeanPooler_spec (E : ℕ) (data : List (List (List ℚ)))
    (masks : List (List ℚ))
    (hlen : List.Forall₂ (fun (seq : List (List ℚ)) (mrow : List ℚ) =>
      seq.length = mrow.length) data masks)
    (hE : ∀ seq ∈ data, ∀ emb ∈ seq, emb.length = E) :
    (maskedMeanPooler E data masks =
      List.zipWith (fun seq mrow => sumVecs E (List.zipWith smulVec mrow seq)) data masks)
    ∧ ((∀ mrow ∈ masks, ∀ m ∈ mrow, m = (0 : ℚ)) →
        maskedMeanPooler E data masks = List.replicate data.length (zeroVec E))
    ∧ ((∀ mrow ∈ masks, ∀ m ∈ mrow, m = (1 : ℚ)) →
        maskedMeanPooler E data masks = data.map (sumVecs E)) :=
  ⟨maskedMeanPooler_eq E data masks,
   maskedMeanPooler_zeroMask E data masks hlen.length_eq hE,
   maskedMeanPooler_onesMask E data masks hlen⟩

/-- Witness for C1 on a concrete `[2, 2, 2]` batch. -/
theorem maskedMeanPooler_spec_witness :
    maskedMeanPooler 2 [[[1, 2], [3, 4]], [[5, 6], [7, 8]]] [[1, 1], [1, 1]]
      = [[[1, 2], [3, 4]], [[5, 6], [7, 8]]].map (sumVecs 2) :=
  (maskedMeanPooler_spec 2 [[[1, 2], [3, 4]], [[5, 6], [7, 8]]] [[1, 1], [1, 1]]
    (by simp) (by intro seq hs emb hm; fin_cases hs <;> fin_cases hm <;> rfl)).2.2
    (by intro mrow hr m hm; fin_cases hr <;> fin_cases hm <;> rfl)

/-!
Next, `WeightedSumPooler` (src/bert.py:52-65).  The learned linear map
`nn.Linear(embedding_size, 1)` is a weight vector `wlin` plus a bias `blin`;
`softmax` is embedded with the exponential abstracted as a parameter
`e : ℚ → ℚ` that (like the real exponential) is assumed strictly positive
where positivity matters.
-/

/-- Dot product of two vectors. -/
def dotQ (u v : List ℚ) : ℚ := (List.zipWith (· * ·) u v).sum

/-- Per-position scalar scores `self.linear(data)` for one example's
sequence (src/bert.py:63). -/
def linearScores (wlin : List ℚ) (blin : ℚ) (seq : List (List ℚ)) : List ℚ :=
  seq.map (fun emb => dotQ wlin emb + blin)

/-- Softmax weights `F.softmax(self.linear(data), dim=1)` for one example: exponentiate each
score with `e` and renormalize by the total (src/bert.py:63). -/
def softmaxWeights (e : ℚ → ℚ) (wlin : List ℚ) (blin : ℚ) (seq : List (List ℚ)) :
    List ℚ :=
  ((linearScores wlin blin seq).map e).map
    (fun x => x / ((linearScores wlin blin seq).map e).sum)

/-- Forward pass of `WeightedSumPooler` (src/bert.py:60-65): softmax weights times
embeddings, summed over the sequence axis.  The `masks` argument is accepted
but never read, exactly as in the source. -/
def weightedSumPooler (e : ℚ → ℚ) (wlin : List ℚ) (blin : ℚ) (E : ℕ)
    (data : List (List (List ℚ))) (masks : List (List ℚ)) : List (List ℚ) :=
  data.map (fun seq =>
    sumVecs E (List.zipWith smulVec (softmaxWeights e wlin blin seq) seq))

theorem sum_map_div (l : List ℚ) (t : ℚ) : (l.map (fun x => x / t)).sum = l.sum / t := by
  induction l with
  | nil => simp
  | cons a tl ih => simp [ih, add_div]

/-- Claim C8: `WeightedSumPooler.forward` softmax-normalizes learned
per-position scores over the sequence axis and returns the weighted sum of
the position embeddings; the weights are nonnegative and sum to 1 along the
sequence axis (for any nonempty sequence), so the output is a convex
combination of all positions including padding, and the mask argument has no
influence on the result. -/
theorem weightedSumPooler_spec (e : ℚ → ℚ) (wlin : List ℚ) (blin : ℚ) (E : ℕ)
    (data : List (List (List ℚ))) (m₁ m₂ : List (List ℚ))
    (hpos : ∀ x, 0 < e x) :
    (∀ seq ∈ data, seq ≠ [] →
      (softmaxWeights e wlin blin seq).sum = 1
      ∧ ∀ w ∈ softmaxWeights e wlin blin seq, 0 ≤ w)
    ∧ weightedSumPooler e wlin blin E data m₁ = weightedSumPooler e wlin blin E data m₂
    ∧ weightedSumPooler e wlin blin E data m₁ =
        data.map (fun seq =>
          sumVecs E (List.zipWith smulVec (softmaxWeights e wlin blin seq) seq)) := by
  refine ⟨?_, rfl, rfl⟩
  intro seq hseq hne
  have hexp : ∀ x ∈ (linearScores wlin blin seq).map e, 0 < x := by
    intro x hx
    obtain ⟨s, _, rfl⟩ := List.mem_map.1 hx
    exact hpos s
  have hnil : (linearScores wlin blin seq).map e ≠ [] := by
    simp [linearScores]
    exact hne
  have htot : 0 < ((linearScores wlin blin seq).map e).sum :=
    List.sum_pos _ hexp hnil
  constructor
  · rw [softmaxWeights, sum_map_div, div_self (ne_of_gt htot)]
  · intro w hw
    obtain ⟨x, hx, rfl⟩ := List.mem_map.1 hw
    exact le_of_lt (div_pos (hexp x hx) htot)

/-- Witness for C8 with `e` the constant-one function on a `[1, 2, 2]` batch. -/
theorem weightedSumPooler_spec_witness :
    (∀ seq ∈ [[[3, 4], [5, 6]]], seq ≠ ([] : List (List ℚ)) →
      (softmaxWeights (fun _ => 1) [1, 0] 0 seq).sum = 1
      ∧ ∀ w ∈ softmaxWeights (fun _ => 1) [1, 0] 0 seq, 0 ≤ w)
    ∧ weightedSumPooler (fun _ => 1) [1, 0] 0 2 [[[3, 4], [5, 6]]] [[1, 0]]
        = weightedSumPooler (fun _ => 1) [1, 0] 0 2 [[[3, 4], [5, 6]]] [[0, 0]] :=
  ⟨(weightedSumPooler_spec (fun _ => 1) [1, 0] 0 2 [[[3, 4], [5, 6]]] [[1, 0]] [[0, 0]]
      (fun _ => one_pos)).1,
   (weightedSumPooler_spec (fun _ => 1) [1, 0] 0 2 [[[3, 4], [5, 6]]] [[1, 0]] [[0, 0]]
      (fun _ => one_pos)).2.1⟩

/-!
Next, `BertController.fit` (src/bert.py:226-268).  Each epoch draws a fresh random
permutation `shuffled_indices` of the training set and cuts it into
contiguous minisets of `validate_every_n_steps` indices
(src/bert.py:233-239).  `torch.randperm` is embedded as an arbitrary
duplicate-free index list of the right length.
-/

/-- The miniset count `(len(train_dataset) + validate_every_n_steps - 1) //
validate_every_n_steps` (src/bert.py:235). -/
def numMinisets (n s : ℕ) : ℕ := (n + s - 1) / s

/-- Size of the `i`-th slice `shuffled_indices[i*s : (i+1)*s]` of a length-`n`
permutation (src/bert.py:238-239). -/
def minisetSize (n s i : ℕ) : ℕ := min s (n - i * s)

/-- The sizes of all minisets of one epoch. -/
def minisetSizes (n s : ℕ) : List ℕ := (List.range (numMinisets n s)).map (minisetSize n s)

/-- The minisets themselves, as slices of the shuffled index list. -/
def minisetSlices {α : Type} (xs : List α) (s : ℕ) : List (List α) :=
  (List.range (numMinisets xs.length s)).map (fun i => (xs.drop (i * s)).take s)

theorem minisetSizes_sum (s : ℕ) (hs : 1 ≤ s) : ∀ n, (minisetSizes n s).sum = n := by
  intro n
  induction n using Nat.strong_induction_on with
  | _ n ih =>
    rcases Nat.lt_or_ge n 1 with h0 | h1
    · interval_cases n
      have hnm : numMinisets 0 s = 0 := by
        unfold numMinisets
        exact Nat.div_eq_of_lt (by omega)
      simp [minisetSizes, hnm]
    · rcases Nat.lt_or_ge s n with hlt | hle
      · have hsplit : n + s - 1 = ((n - s) + s - 1) + s := by omega
        have hnm : numMinisets n s = numMinisets (n - s) s + 1 := by
          unfold numMinisets
          rw [hsplit, Nat.add_div_right _ (by omega)]
        have hsz : ∀ i, minisetSize n s (i + 1) = minisetSize (n - s) s i := by
          intro i
          unfold minisetSize
          congr 1
          rw [Nat.succ_mul, ← Nat.sub_sub, Nat.sub_right_comm]
        have hsz0 : minisetSize n s 0 = s := by
          unfold minisetSize
          simp [Nat.min_eq_left (le_of_lt hlt)]
        have ihs := ih (n - s) (by omega)
        unfold minisetSizes at ihs ⊢
        rw [hnm, List.range_succ_eq_map, List.map_cons, List.map_map, List.sum_cons,
          hsz0]
        have hmaps : List.map (minisetSize n s ∘ Nat.succ) (List.range (numMinisets (n - s) s))
            = List.map (minisetSize (n - s) s) (List.range (numMinisets (n - s) s)) :=
          List.map_congr_left (fun i _ => hsz i)
        rw [hmaps, ihs]
        omega
      · have hnm : numMinisets n s = 1 := by
          unfold numMinisets
          exact Nat.div_eq_of_lt_le (by omega) (by omega)
        have hsz0 : minisetSize n s 0 = n := by
          unfold minisetSize
          simp [Nat.min_eq_right hle]
        have hr1 : List.range 1 = [0] := rfl
        simp [minisetSizes, hnm, hr1, hsz0]

theorem minisetSlices_lengths {α : Type} (xs : List α) (s : ℕ) :
    (minisetSlices xs s).map List.length = minisetSizes xs.length s := by
  unfold minisetSlices minisetSizes
  rw [List.map_map]
  apply List.map_congr_left
  intro i _
  simp [minisetSize, List.length_take, List.length_drop]

theorem minisetSlices_disjoint {α : Type} (xs : List α) (s : ℕ) (hs : 1 ≤ s)
    (hnd : xs.Nodup) : (minisetSlices xs s).Pairwise List.Disjoint := by
  unfold minisetSlices
  rw [List.pairwise_map]
  apply List.Pairwise.imp_of_mem ?_ (List.pairwise_lt_range _)
  intro i j _ _ hij
  have hle : i * s + s ≤ j * s := by
    have h1 : (i + 1) * s ≤ j * s := Nat.mul_le_mul_right s hij
    rw [Nat.add_mul, one_mul] at h1
    exact h1
  have hdisj : ((xs.take (i * s + s)).Disjoint (xs.drop (j * s))) :=
    List.disjoint_take_drop hnd hle
  have hsub₁ : (xs.drop (i * s)).take s ⊆ xs.take (i * s + s) := by
    have : (xs.take (i * s + s)).drop (i * s) = ((xs.drop (i * s)).take s) := by
      rw [List.drop_take]
      congr 1
      omega
    rw [← this]
    exact List.drop_subset _ _
  have hsub₂ : (xs.drop (j * s)).take s ⊆ xs.drop (j * s) := List.take_subset _ _
  exact fun a ha hb => hdisj (hsub₁ ha) (hsub₂ hb)

/-- Claim C3: each epoch of `fit` partitions a fresh permutation of the
training indices into contiguous minisets of `validate_every_n_steps`
indices each, the last possibly smaller: for 10000 examples and interval
3000 the sizes are `[3000, 3000, 3000, 1000]`; for every dataset size and
interval the minisets are pairwise disjoint and their sizes sum to the
dataset size. -/
theorem minisetPartition_spec {α : Type} (n s : ℕ) (xs : List α)
    (hs : 1 ≤ s) (hnd : xs.Nodup) (hxs : xs.length = n) :
    minisetSizes 10000 3000 = [3000, 3000, 3000, 1000]
    ∧ (minisetSizes n s).sum = n
    ∧ (minisetSlices xs s).map List.length = minisetSizes n s
    ∧ (minisetSlices xs s).Pairwise List.Disjoint := by
  refine ⟨by decide, minisetSizes_sum s hs n, ?_, minisetSlices_disjoint xs s hs hnd⟩
  rw [minisetSlices_lengths, hxs]

/-- Witness for C3 on the index list `[0, 1, 2]` with interval 2. -/
theorem minisetPartition_spec_witness :
    minisetSizes 10000 3000 = [3000, 3000, 3000, 1000]
    ∧ (minisetSizes 3 2).sum = 3
    ∧ (minisetSlices [0, 1, 2] 2).map List.length = minisetSizes 3 2
    ∧ (minisetSlices ([0, 1, 2] : List ℕ) 2).Pairwise List.Disjoint :=
  minisetPartition_spec 3 2 [0, 1, 2] (by decide) (by decide) (by decide)

/-- The mutable state of one `fit` call (src/bert.py:227-228):
`best_dev_acc`, `rounds_no_increase`, the number of validations performed so
far, and the `stop_early` flag. -/
structure FitState where
  best : ℚ
  rounds : ℕ
  numVal : ℕ
  stopped : Bool
deriving DecidableEq

/-- One miniset iteration of `fit` (src/bert.py:236-263).  Validation
accuracies are supplied by an oracle `acc : ℕ → ℚ` giving the accuracy
observed at the k-th validation (`validate`'s value depends on the trained
parameters; indexing by validation count captures any such history).  After
early stop the remaining iterations are never executed, which is modelled by
freezing the state. -/
def fitStep (acc : ℕ → ℚ) (esr : ℕ) (devPresent : Bool) (s n i : ℕ)
    (st : FitState) : FitState :=
  if st.stopped then st
  else if devPresent = false ∨ minisetSize n s i < s / 2 then st
  else
    let a := acc st.numVal
    let st1 : FitState :=
      if st.best < a then ⟨a, 0, st.numVal + 1, st.stopped⟩
      else ⟨st.best, st.rounds + 1, st.numVal + 1, st.stopped⟩
    if st1.rounds = esr then ⟨st1.best, st1.rounds, st1.numVal, true⟩ else st1

/-- One epoch of `fit`: the miniset loop `for idx_miniset in
range(num_minisets)` (src/bert.py:236). -/
def runEpoch (acc : ℕ → ℚ) (esr : ℕ) (devPresent : Bool) (s n : ℕ)
    (st : FitState) : FitState :=
  (List.range (numMinisets n s)).foldl
    (fun t i => fitStep acc esr devPresent s n i t) st

/-- The whole of `BertController.fit` (src/bert.py:226-268): `best_dev_acc` and
`rounds_no_increase` are re-initialised to `0.0, 0` at the start of every
call, then the epoch loop runs. -/
def fitRun (acc : ℕ → ℚ) (esr : ℕ) (devPresent : Bool) (s n numEpochs : ℕ) :
    FitState :=
  (List.range numEpochs).foldl
    (fun t _ => runEpoch acc esr devPresent s n t) ⟨0, 0, 0, false⟩

theorem fitStep_stopped (acc : ℕ → ℚ) (esr : ℕ) (dev : Bool) (s n i : ℕ)
    (st : FitState) (h : st.stopped = true) : fitStep acc esr dev s n i st = st := by
  simp [fitStep, h]

theorem foldl_fitStep_stopped (acc : ℕ → ℚ) (esr : ℕ) (dev : Bool) (s n : ℕ) :
    ∀ (l : List ℕ) (st : FitState), st.stopped = true →
      l.foldl (fun t i => fitStep acc esr dev s n i t) st = st
  | [], _, _ => rfl
  | i :: l, st, h => by
      rw [List.foldl_cons, fitStep_stopped acc esr dev s n i st h]
      exact foldl_fitStep_stopped acc esr dev s n l st h

theorem runEpoch_stopped (acc : ℕ → ℚ) (esr : ℕ) (dev : Bool) (s n : ℕ)
    (st : FitState) (h : st.stopped = true) : runEpoch acc esr dev s n st = st :=
  foldl_fitStep_stopped acc esr dev s n _ st h

theorem fitStep_noDev (acc : ℕ → ℚ) (esr : ℕ) (s n i : ℕ) (st : FitState) :
    fitStep acc esr false s n i st = st := by
  simp [fitStep]

theorem fitRun_noDev (acc : ℕ → ℚ) (esr : ℕ) (s n numEpochs : ℕ) :
    fitRun acc esr false s n numEpochs = ⟨0, 0, 0, false⟩ := by
  unfold fitRun
  generalize List.range numEpochs = l
  induction l with
  | nil => rfl
  | cons e t ih =>
      rw [List.foldl_cons]
      have hre : runEpoch acc esr false s n ⟨0, 0, 0, false⟩ = ⟨0, 0, 0, false⟩ := by
        unfold runEpoch
        generalize List.range (numMinisets n s) = l'
        induction l' with
        | nil => rfl
        | cons j t' ih' => rw [List.foldl_cons, fitStep_noDev]; exact ih'
      rw [hre]
      exact ih

theorem fitStep_firstMiniset_ok (acc : ℕ → ℚ) (esr : ℕ) (s n : ℕ)
    (hn : s ≤ n) (st : FitState) (hstop : st.stopped = false) :
    fitStep acc esr true s n 0 st =
      (let a := acc st.numVal
       let st1 : FitState :=
         if st.best < a then ⟨a, 0, st.numVal + 1, st.stopped⟩
         else ⟨st.best, st.rounds + 1, st.numVal + 1, st.stopped⟩
       if st1.rounds = esr then ⟨st1.best, st1.rounds, st1.numVal, true⟩ else st1) := by
  have hsz : minisetSize n s 0 = s := by
    unfold minisetSize
    simp [Nat.min_eq_left hn]
  have hnosmall : ¬ (minisetSize n s 0 < s / 2) := by
    rw [hsz]
    exact not_lt.2 (Nat.div_le_self s 2)
  simp [fitStep, hstop, hnosmall]

theorem fitStep_validates_numVal (acc : ℕ → ℚ) (esr s n i : ℕ) (st : FitState)
    (hstop : st.stopped = false) (hnsmall : ¬ (minisetSize n s i < s / 2)) :
    (fitStep acc esr true s n i st).numVal = st.numVal + 1 := by
  by_cases hbest : st.best < acc st.numVal
  · by_cases hesr : (0 : ℕ) = esr
    · simp [fitStep, hstop, hnsmall, hbest, ← hesr]
    · simp [fitStep, hstop, hnsmall, hbest, hesr]
  · by_cases hesr : st.rounds + 1 = esr
    · simp [fitStep, hstop, hnsmall, hbest, hesr]
    · simp [fitStep, hstop, hnsmall, hbest, hesr]

theorem fitStep_inv (acc : ℕ → ℚ) (s n i : ℕ)
    (hmono : ∀ k, 1 ≤ k → acc k ≤ acc 0) (st : FitState)
    (h : st = ⟨acc 0, 0, 1, false⟩ ∨ st = ⟨acc 0, 1, 2, true⟩) :
    fitStep acc 1 true s n i st = ⟨acc 0, 0, 1, false⟩
    ∨ fitStep acc 1 true s n i st = ⟨acc 0, 1, 2, true⟩ := by
  rcases h with h | h
  · subst h
    by_cases hsmall : minisetSize n s i < s / 2
    · left
      simp [fitStep, hsmall]
    · right
      have hna : ¬ ((⟨acc 0, 0, 1, false⟩ : FitState).best < acc 1) :=
        not_lt.2 (hmono 1 le_rfl)
      simp [fitStep, hsmall, hna]
  · subst h
    right
    exact fitStep_stopped acc 1 true s n i _ rfl

theorem foldl_fitStep_inv (acc : ℕ → ℚ) (s n : ℕ)
    (hmono : ∀ k, 1 ≤ k → acc k ≤ acc 0) :
    ∀ (l : List ℕ) (st : FitState),
      (st = ⟨acc 0, 0, 1, false⟩ ∨ st = ⟨acc 0, 1, 2, true⟩) →
      (l.foldl (fun t i => fitStep acc 1 true s n i t) st = ⟨acc 0, 0, 1, false⟩
       ∨ l.foldl (fun t i => fitStep acc 1 true s n i t) st = ⟨acc 0, 1, 2, true⟩)
  | [], _, h => h
  | i :: l, st, h => by
      rw [List.foldl_cons]
      exact foldl_fitStep_inv acc s n hmono l _ (fitStep_inv acc s n i hmono st h)

theorem numMinisets_pos (s n : ℕ) (hs : 1 ≤ s) (hn : 1 ≤ n) :
    ∃ M, numMinisets n s = M + 1 := by
  refine ⟨numMinisets n s - 1, ?_⟩
  have : 1 ≤ numMinisets n s := by
    unfold numMinisets
    rw [Nat.le_div_iff_mul_le (by omega)]
    omega
  omega

theorem runEpoch_S0 (acc : ℕ → ℚ) (s n : ℕ) (hs : 1 ≤ s) (hn : s ≤ n)
    (hpos : 0 < acc 0) (hmono : ∀ k, 1 ≤ k → acc k ≤ acc 0) :
    runEpoch acc 1 true s n ⟨0, 0, 0, false⟩ = ⟨acc 0, 0, 1, false⟩
    ∨ runEpoch acc 1 true s n ⟨0, 0, 0, false⟩ = ⟨acc 0, 1, 2, true⟩ := by
  obtain ⟨M, hM⟩ := numMinisets_pos s n hs (le_trans hs hn)
  unfold runEpoch
  rw [hM, List.range_succ_eq_map, List.foldl_cons]
  have hfirst : fitStep acc 1 true s n 0 ⟨0, 0, 0, false⟩ = ⟨acc 0, 0, 1, false⟩ := by
    rw [fitStep_firstMiniset_ok acc 1 s n hn _ rfl]
    simp [hpos]
  rw [hfirst]
  exact foldl_fitStep_inv acc s n hmono _ _ (Or.inl rfl)

theorem runEpoch_S1 (acc : ℕ → ℚ) (s n : ℕ) (hs : 1 ≤ s) (hn : s ≤ n)
    (hmono : ∀ k, 1 ≤ k → acc k ≤ acc 0) :
    runEpoch acc 1 true s n ⟨acc 0, 0, 1, false⟩ = ⟨acc 0, 1, 2, true⟩ := by
  obtain ⟨M, hM⟩ := numMinisets_pos s n hs (le_trans hs hn)
  unfold runEpoch
  rw [hM, List.range_succ_eq_map, List.foldl_cons]
  have hfirst : fitStep acc 1 true s n 0 ⟨acc 0, 0, 1, false⟩ = ⟨acc 0, 1, 2, true⟩ := by
    rw [fitStep_firstMiniset_ok acc 1 s n hn _ rfl]
    have hna : ¬ ((acc 0 : ℚ) < acc 1) := not_lt.2 (hmono 1 le_rfl)
    simp [hna]
  rw [hfirst]
  exact foldl_fitStep_stopped acc 1 true s n _ _ rfl

/-- Claim C2 (amended): with `early_stopping_rounds = 1`, a first validation
accuracy strictly above the initial best of `0.0`, later accuracies never
exceeding the first, and at least two validation opportunities (here: a full
first miniset per epoch and at least two epochs), `fit` performs exactly two
validations and stops early: the first validation records the best accuracy
and resets the counter, the second leaves the best, raises the counter to the
threshold and aborts all remaining minisets and epochs.  `fitRun` restarts
from `best = 0, rounds = 0` on every call. -/
theorem fit_earlyStopping_spec (acc : ℕ → ℚ) (s n numEpochs : ℕ)
    (hs : 1 ≤ s) (hn : s ≤ n) (he : 2 ≤ numEpochs)
    (hpos : 0 < acc 0) (hmono : ∀ k, 1 ≤ k → acc k ≤ acc 0) :
    fitRun acc 1 true s n numEpochs = ⟨acc 0, 1, 2, true⟩
    ∧ (∀ (esr : ℕ) (i : ℕ) (st : FitState), st.stopped = false →
        ¬ (minisetSize n s i < s / 2) →
        (fitStep acc esr true s n i st).rounds
            = (if st.best < acc st.numVal then 0 else st.rounds + 1)
        ∧ (fitStep acc esr true s n i st).numVal = st.numVal + 1
        ∧ ((fitStep acc esr true s n i st).stopped = true ↔
            (if st.best < acc st.numVal then 0 else st.rounds + 1) = esr)) := by
  constructor
  · obtain ⟨K, hK⟩ : ∃ K, numEpochs = K + 2 := ⟨numEpochs - 2, by omega⟩
    subst hK
    unfold fitRun
    rw [List.range_succ_eq_map, List.range_succ_eq_map, List.map_cons,
      List.foldl_cons, List.foldl_cons]
    have h1 := runEpoch_S0 acc s n hs hn hpos hmono
    have hrest : ∀ (l : List ℕ) (st : FitState), st = ⟨acc 0, 1, 2, true⟩ →
        l.foldl (fun t _ => runEpoch acc 1 true s n t) st = ⟨acc 0, 1, 2, true⟩ := by
      intro l
      induction l with
      | nil => intro st h; exact h
      | cons e t ih =>
          intro st h
          rw [List.foldl_cons, h, runEpoch_stopped acc 1 true s n _ rfl]
          exact ih _ rfl
    rcases h1 with h1 | h1 <;> rw [h1]
    · rw [runEpoch_S1 acc s n hs hn hmono]
      exact hrest _ _ rfl
    · rw [runEpoch_stopped acc 1 true s n _ rfl]
      exact hrest _ _ rfl
  · intro esr i st hstop hnsmall
    by_cases hbest : st.best < acc st.numVal
    · by_cases hesr : (0 : ℕ) = esr
      · simp [fitStep, hstop, hnsmall, hbest, ← hesr]
      · simp [fitStep, hstop, hnsmall, hbest, hesr]
    · by_cases hesr : st.rounds + 1 = esr
      · simp [fitStep, hstop, hnsmall, hbest, hesr]
      · simp [fitStep, hstop, hnsmall, hbest, hesr]

/-- Witness for C2's amended statement at a concrete run: interval 1,
dataset size 1, 2 epochs, accuracies 1, 1, 1, ... -/
theorem fit_earlyStopping_spec_witness :
    fitRun (fun _ => 1) 1 true 1 1 2 = ⟨1, 1, 2, true⟩ :=
  (fit_earlyStopping_spec (fun _ => 1) 1 1 2 le_rfl le_rfl le_rfl one_pos
    (fun _ _ => le_rfl)).1

/-- Counterexample to C2 as stated: a dev set whose accuracy is always `0.0`
never exceeds the accuracy of its own first validation, yet with
`early_stopping_rounds = 1` the run stops after exactly ONE validation, not
two: `0.0 > best_dev_acc = 0.0` is already false at the first check, so the
counter reaches the threshold immediately. -/
theorem fit_earlyStopping_counterexample :
    (fitRun (fun _ => 0) 1 true 1 1 5).numVal = 1
    ∧ (fitRun (fun _ => 0) 1 true 1 1 5).stopped = true := by
  constructor <;> rfl

/-- Claim C9: validation after a miniset is skipped exactly when
`dev_dataset` is `None` or the miniset has fewer examples than half the
validation interval; a skipped validation leaves the whole early-stopping
state untouched, and with no dev set `fit` never validates and never stops
early, for any number of epochs. -/
theorem fit_skipValidation_spec (acc : ℕ → ℚ) (esr s n i numEpochs : ℕ)
    (st : FitState) (hstop : st.stopped = false) :
    fitRun acc esr false s n numEpochs = ⟨0, 0, 0, false⟩
    ∧ fitStep acc esr false s n i st = st
    ∧ (minisetSize n s i < s / 2 → fitStep acc esr true s n i st = st)
    ∧ ((fitStep acc esr true s n i st).numVal = st.numVal
        ↔ minisetSize n s i < s / 2) := by
  refine ⟨fitRun_noDev acc esr s n numEpochs, fitStep_noDev acc esr s n i st, ?_, ?_⟩
  · intro hsmall
    simp [fitStep, hstop, hsmall]
  · constructor
    · intro hnv
      by_contra hsmall
      have h2 : (fitStep acc esr true s n i st).numVal = st.numVal + 1 :=
        fitStep_validates_numVal acc esr s n i st hstop hsmall
      omega
    · intro hsmall
      simp [fitStep, hstop, hsmall]

/-- Witness for C9 at interval 2, dataset size 3, miniset index 1 (the small
last miniset, size 1, equal to the skip threshold boundary). -/
theorem fit_skipValidation_spec_witness :
    fitRun (fun _ => 0) 1 false 2 3 2 = ⟨0, 0, 0, false⟩
    ∧ fitStep (fun _ => 0) 1 false 2 3 1 ⟨0, 0, 0, false⟩ = ⟨0, 0, 0, false⟩
    ∧ (minisetSize 3 2 1 < 2 / 2 →
        fitStep (fun _ => 0) 1 true 2 3 1 ⟨0, 0, 0, false⟩ = ⟨0, 0, 0, false⟩)
    ∧ ((fitStep (fun _ => 0) 1 true 2 3 1 ⟨0, 0, 0, false⟩).numVal
          = (⟨0, 0, 0, false⟩ : FitState).numVal
        ↔ minisetSize 3 2 1 < 2 / 2) :=
  fit_skipValidation_spec (fun _ => 0) 1 2 3 1 2 ⟨0, 0, 0, false⟩ rfl

/-!
Next, `MorphologicalBertForSequenceClassification` (src/bert.py:85-148).  The BERT
encoder is an external collaborator: its pooled output `[B, H]` enters the
model as data.  The per-feature embedding tables are functions `ℕ → List ℚ`,
the batch dict `kwargs` is split into the association lists for the
`{feature}_ids` and `{feature}_mask` keys, and a missing key (Python
`KeyError`) is an `Except.error`.
-/

/-- An `nn.Linear` layer: `W x + b`, one output per (row, bias) pair. -/
def linearApply (W : List (List ℚ)) (b : List ℚ) (x : List ℚ) : List ℚ :=
  List.zipWith (fun row bi => dotQ row x + bi) W b

/-- Functional dropout `F.dropout(x, p)` with its default `training=True`: a kept coordinate is
scaled by `1/(1-p)`, a dropped one becomes 0; `keep` is the random keep mask
drawn by the backend for this call.  Note that src/bert.py:147 calls the
functional form, whose `training` flag is NOT tied to `model.eval()`. -/
def dropoutFn (p : ℚ) (keep : List Bool) (x : List ℚ) : List ℚ :=
  List.zipWith (fun v k => if k then v / (1 - p) else 0) x keep

/-- Embedding lookup `self.embedders[feature_name](curr_input)` on a `[B, T]` id tensor. -/
def embedBatch (emb : ℕ → List ℚ) (ids : List (List ℕ)) : List (List (List ℚ)) :=
  ids.map (fun row => row.map emb)

/-- Concatenation `torch.cat(additional_processed, dim=1)` over a nonempty list of
`[B, E_f]` tensors. -/
def catFeats : List (List (List ℚ)) → List (List ℚ)
  | [] => []
  | [f] => f
  | f :: rest => List.zipWith (· ++ ·) f (catFeats rest)

/-- The feature loop of `forward` (src/bert.py:136-141): for each configured
feature, look up `{feature}_ids` and `{feature}_mask` in the batch kwargs
(raising `KeyError` if absent), embed the ids and pool them with the single
shared pooler `pool`. -/
def processFeatures (pool : List (List (List ℚ)) → List (List ℚ) → List (List ℚ))
    (embr : String → ℕ → List ℚ) (config : List String)
    (kwIds : List (String × List (List ℕ)))
    (kwMask : List (String × List (List ℚ))) :
    Except String (List (List (List ℚ))) :=
  match config with
  | [] => .ok []
  | f :: rest =>
    match kwIds.lookup f with
    | none => .error (String.append f ("_ids"))
    | some ids =>
      match kwMask.lookup f with
      | none => .error (String.append f ("_mask"))
      | some ms =>
        match processFeatures pool embr rest kwIds kwMask with
        | .error e => .error e
        | .ok restP => .ok (pool (embedBatch (embr f) ids) ms :: restP)

/-- Forward pass of `MorphologicalBertForSequenceClassification` (src/bert.py:131-148)
below the opaque BERT call: `pooled` is BERT's pooled output `[B, H]`; the
per-feature pooled vectors are concatenated to it along dim 1, then
`self.classifier(F.dropout(pooled_output, p=self.dropout))` produces the
logits; `keeps` is the dropout keep mask for this call. -/
def mbForward (pool : List (List (List ℚ)) → List (List ℚ) → List (List ℚ))
    (embr : String → ℕ → List ℚ) (config : List String)
    (W : List (List ℚ)) (bvec : List ℚ) (p : ℚ) (keeps : List (List Bool))
    (pooled : List (List ℚ))
    (kwIds : List (String × List (List ℕ)))
    (kwMask : List (String × List (List ℚ))) :
    Except String (List (List ℚ)) :=
  match processFeatures pool embr config kwIds kwMask with
  | .error e => .error e
  | .ok feats =>
    let fused := if feats.isEmpty then pooled
                 else List.zipWith (· ++ ·) pooled (catFeats feats)
    .ok (List.zipWith (fun x k => linearApply W bvec (dropoutFn p k x)) fused keeps)

theorem linearApply_length (W : List (List ℚ)) (b x : List ℚ) :
    (linearApply W b x).length = min W.length b.length :=
  List.length_zipWith _ _ _

/-- Claim C6: the fusion classifier's logits always have `num_labels`
columns (the classifier is built with `out_features = num_labels`,
src/bert.py:111-112), for any number of configured auxiliary features; and
with zero features configured, `forward` is exactly
`classifier(dropout(pooled_output))` — feature fusion is a no-op. -/
theorem mbForward_spec (pool : List (List (List ℚ)) → List (List ℚ) → List (List ℚ))
    (embr : String → ℕ → List ℚ) (config : List String)
    (W : List (List ℚ)) (bvec : List ℚ) (p : ℚ) (keeps : List (List Bool))
    (pooled : List (List ℚ)) (kwIds : List (String × List (List ℕ)))
    (kwMask : List (String × List (List ℚ))) (numLabels : ℕ)
    (hW : W.length = numLabels) (hb : bvec.length = numLabels) :
    (∀ out, mbForward pool embr config W bvec p keeps pooled kwIds kwMask
        = Except.ok out → ∀ row ∈ out, row.length = numLabels)
    ∧ mbForward pool embr [] W bvec p keeps pooled kwIds kwMask
        = Except.ok (List.zipWith (fun x k => linearApply W bvec (dropoutFn p k x))
            pooled keeps) := by
  constructor
  · intro out hout row hrow
    unfold mbForward at hout
    cases hpf : processFeatures pool embr config kwIds kwMask with
    | error e => rw [hpf] at hout; exact absurd hout (by simp)
    | ok feats =>
        rw [hpf] at hout
        simp only [Except.ok.injEq] at hout
        subst hout
        obtain ⟨x, k, _, _, hrw⟩ := mem_zipWith_exists hrow
        rw [hrw, linearApply_length, hW, hb, Nat.min_self]
  · rfl

/-- Witness for C6: 2 labels, no auxiliary features, one example. -/
theorem mbForward_spec_witness :
    (∀ out, mbForward (fun d _ => d.map (fun _ => [])) (fun _ _ => []) []
        [[1], [2]] [0, 0] (1/2) [[true]] [[3]] [] [] = Except.ok out →
        ∀ row ∈ out, row.length = 2)
    ∧ mbForward (fun d _ => d.map (fun _ => [])) (fun _ _ => []) []
        [[1], [2]] [0, 0] (1/2) [[true]] [[3]] [] []
        = Except.ok (List.zipWith
            (fun x k => linearApply [[1], [2]] [0, 0] (dropoutFn (1/2) k x))
            [[3]] [[true]]) :=
  mbForward_spec (fun d _ => d.map (fun _ => [])) (fun _ _ => []) []
    [[1], [2]] [0, 0] (1/2) [[true]] [[3]] [] [] 2 rfl rfl

theorem processFeatures_missing
    (pool : List (List (List ℚ)) → List (List ℚ) → List (List ℚ))
    (embr : String → ℕ → List ℚ) (f : String)
    (kwIds : List (String × List (List ℕ)))
    (kwMask : List (String × List (List ℚ)))
    (hmiss : kwIds.lookup f = none ∨ kwMask.lookup f = none) :
    ∀ (config : List String), f ∈ config →
      ∃ msg, processFeatures pool embr config kwIds kwMask = Except.error msg
  | [], hf => absurd hf (by simp)
  | g :: rest, hf => by
      cases hg1 : kwIds.lookup g with
      | none => exact ⟨String.append g ("_ids"), by simp [processFeatures, hg1]⟩
      | some ids =>
        cases hg2 : kwMask.lookup g with
        | none => exact ⟨String.append g ("_mask"), by simp [processFeatures, hg1, hg2]⟩
        | some ms =>
            have hfg : f ≠ g := by
              rintro rfl
              rcases hmiss with hm | hm
              · rw [hm] at hg1; cases hg1
              · rw [hm] at hg2; cases hg2
            have hf' : f ∈ rest := by
              rcases List.mem_cons.1 hf with h | h
              · exact absurd h hfg
              · exact h
            obtain ⟨msg, hmsg⟩ :=
              processFeatures_missing pool embr f kwIds kwMask hmiss rest hf'
            exact ⟨msg, by simp [processFeatures, hg1, hg2, hmsg]⟩

/-- Claim C7: if any configured feature's `{feature}_ids` or
`{feature}_mask` key is missing from the batch kwargs, `forward` raises
(`KeyError`, src/bert.py:138-139) instead of silently skipping the
feature. -/
theorem mbForward_missingKey_spec
    (pool : List (List (List ℚ)) → List (List ℚ) → List (List ℚ))
    (embr : String → ℕ → List ℚ) (config : List String)
    (W : List (List ℚ)) (bvec : List ℚ) (p : ℚ) (keeps : List (List Bool))
    (pooled : List (List ℚ)) (kwIds : List (String × List (List ℕ)))
    (kwMask : List (String × List (List ℚ))) (f : String)
    (hf : f ∈ config) (hmiss : kwIds.lookup f = none ∨ kwMask.lookup f = none) :
    ∃ msg, mbForward pool embr config W bvec p keeps pooled kwIds kwMask
      = Except.error msg := by
  obtain ⟨msg, hmsg⟩ := processFeatures_missing pool embr f kwIds kwMask hmiss config hf
  exact ⟨msg, by simp [mbForward, hmsg]⟩

/-- Witness for C7: feature `upostag` configured, empty batch kwargs. -/
theorem mbForward_missingKey_spec_witness :
    ∃ msg, mbForward (fun d _ => d.map (fun _ => [])) (fun _ _ => []) ["upostag"]
      [[1]] [0] (1/2) [[true]] [[3]] [] [] = Except.error msg :=
  mbForward_missingKey_spec (fun d _ => d.map (fun _ => [])) (fun _ _ => [])
    ["upostag"] [[1]] [0] (1/2) [[true]] [[3]] [] [] ("upostag") (by simp)
    (Or.inl rfl)

/-- The pooler attribute chosen in
`MorphologicalBertForSequenceClassification.__init__` (src/bert.py:95-105):
`absent` records that `self.pooler` is never assigned when no auxiliary
features are configured. -/
inductive PoolerSpec where
  | lstm (hidden : ℕ)
  | weighted (embSize : ℕ)
  | mean
  | absent
deriving DecidableEq

/-- The pooler-selection branch of `__init__` (src/bert.py:95-105):
`additional_features["upostag"]` sizes the LSTM and weighted poolers, therefore
Python raises `KeyError` when `"upostag"` is not a configured feature. -/
def mkPooler (additional : List (String × ℕ)) (poolingType : Option String) :
    Except String PoolerSpec :=
  if 0 < additional.length then
    if poolingType = some ("lstm") then
      match additional.lookup ("upostag") with
      | some h => .ok (.lstm h)
      | none => .error ("upostag")
    else if poolingType = some ("weighted") then
      match additional.lookup ("upostag") with
      | some h => .ok (.weighted h)
      | none => .error ("upostag")
    else .ok .mean
  else .ok .absent

theorem processFeatures_all_ok
    (pool : List (List (List ℚ)) → List (List ℚ) → List (List ℚ))
    (embr : String → ℕ → List ℚ)
    (ids : String → List (List ℕ)) (ms : String → List (List ℚ))
    (kwIds : List (String × List (List ℕ)))
    (kwMask : List (String × List (List ℚ))) :
    ∀ (config : List String),
      (∀ f ∈ config, kwIds.lookup f = some (ids f)) →
      (∀ f ∈ config, kwMask.lookup f = some (ms f)) →
      processFeatures pool embr config kwIds kwMask
        = Except.ok (config.map (fun f => pool (embedBatch (embr f) (ids f)) (ms f)))
  | [], _, _ => rfl
  | g :: rest, h1, h2 => by
      have ih := processFeatures_all_ok pool embr ids ms kwIds kwMask rest
        (fun f hf => h1 f (by simp [hf])) (fun f hf => h2 f (by simp [hf]))
      simp [processFeatures, h1 g (by simp), h2 g (by simp), ih]

/-- Claim C10: when `pooling_type` is `"lstm"` or `"weighted"` and at least
one auxiliary feature is configured, `__init__` reads
`additional_features["upostag"]` to size the single pooler shared by all
features, so construction raises `KeyError` when `"upostag"` is absent; when
present, the one pooler is dimensioned by upostag's embedding size, and in
`forward` that same pooler is applied to every configured feature's
embeddings. -/
theorem mkPooler_upostag_spec (additional : List (String × ℕ)) (pt : Option String)
    (hne : additional ≠ []) (hpt : pt = some ("lstm") ∨ pt = some ("weighted")) :
    (additional.lookup ("upostag") = none → mkPooler additional pt = Except.error ("upostag"))
    ∧ (∀ h, additional.lookup ("upostag") = some h →
        mkPooler additional pt
          = Except.ok (if pt = some ("lstm") then PoolerSpec.lstm h
              else PoolerSpec.weighted h))
    ∧ (∀ (pool : List (List (List ℚ)) → List (List ℚ) → List (List ℚ))
        (embr : String → ℕ → List ℚ)
        (ids : String → List (List ℕ)) (ms : String → List (List ℚ))
        (kwIds : List (String × List (List ℕ)))
        (kwMask : List (String × List (List ℚ))) (config : List String),
        (∀ f ∈ config, kwIds.lookup f = some (ids f)) →
        (∀ f ∈ config, kwMask.lookup f = some (ms f)) →
        processFeatures pool embr config kwIds kwMask
          = Except.ok (config.map (fun f => pool (embedBatch (embr f) (ids f)) (ms f)))) := by
  have hlen : 0 < additional.length := List.length_pos.2 hne
  refine ⟨?_, ?_, fun pool embr ids ms kwIds kwMask config h1 h2 =>
    processFeatures_all_ok pool embr ids ms kwIds kwMask config h1 h2⟩
  · intro hnone
    rcases hpt with h | h <;> subst h <;> simp [mkPooler, hlen, hnone]
  · intro h hsome
    rcases hpt with hp | hp <;> subst hp <;> simp [mkPooler, hlen, hsome]

/-- Witness for C10: `pooling_type="lstm"` with only a `"Case"` feature
configured (no `"upostag"`): construction fails. -/
theorem mkPooler_upostag_spec_witness :
    (List.lookup ("upostag") [("Case", 15)] = none →
      mkPooler [("Case", 15)] (some ("lstm")) = Except.error ("upostag"))
    ∧ mkPooler [("Case", 15)] (some ("lstm")) = Except.error ("upostag")
    ∧ processFeatures (fun d _ => d.map (fun _ => [])) (fun _ _ => [])
        ["upostag"] [("upostag", [[0]])] [("upostag", [[1]])]
        = Except.ok (["upostag"].map (fun f =>
            (fun (d : List (List (List ℚ))) (_ : List (List ℚ)) =>
              d.map (fun _ => ([] : List ℚ)))
            (embedBatch ((fun _ _ => []) f) [[0]]) [[1]])) := by
  have hmain := mkPooler_upostag_spec [("Case", 15)] (some ("lstm"))
    (by simp) (Or.inl rfl)
  refine ⟨hmain.1, hmain.1 rfl, hmain.2.2 (fun d _ => d.map (fun _ => []))
    (fun _ _ => []) (fun _ => [[0]]) (fun _ => [[1]]) [("upostag", [[0]])]
    [("upostag", [[1]])] ["upostag"] ?_ ?_⟩ <;> simp

/-!
Padding-row invariance (claim C5).  `nn.Embedding(..., padding_idx=...)`
(src/bert.py:120-122) initialises the padding row to the zero vector and
guarantees a zero gradient at that row on every backward pass.  The
optimiser is `optim.AdamW(self.model.parameters(), lr=lr)` (src/bert.py:173)
whose update is elementwise, so it is embedded at the level of the padding
row; the elementwise square root is abstracted as `sqrtQ`.
-/

/-- Optimiser state of one embedding row: the parameter vector, first and
second moments, and the step count. -/
structure AdamWRow where
  theta : List ℚ
  m : List ℚ
  v : List ℚ
  t : ℕ
deriving DecidableEq

/-- One `optimizer.step()` of AdamW on one row with gradient `g`:
decoupled weight decay `theta * (1 - lr*wd)` plus the bias-corrected
moment update `-lr * mhat / (sqrt vhat + eps)`. -/
def adamwRowStep (sqrtQ : ℚ → ℚ) (lr beta1 beta2 eps wd : ℚ) (g : List ℚ)
    (st : AdamWRow) : AdamWRow :=
  let t' := st.t + 1
  let m' := List.zipWith (fun mi gi => beta1 * mi + (1 - beta1) * gi) st.m g
  let v' := List.zipWith (fun vi gi => beta2 * vi + (1 - beta2) * gi * gi) st.v g
  let mhat := m'.map (fun x => x / (1 - beta1 ^ t'))
  let vhat := v'.map (fun x => x / (1 - beta2 ^ t'))
  ⟨List.zipWith (fun thi mv => thi * (1 - lr * wd) - lr * (mv.1 / (sqrtQ mv.2 + eps)))
      st.theta (mhat.zip vhat),
   m', v', t'⟩

/-- A sequence of training steps acting on one embedding row. -/
def adamwRowRun (sqrtQ : ℚ → ℚ) (lr beta1 beta2 eps wd : ℚ)
    (grads : List (List ℚ)) (st : AdamWRow) : AdamWRow :=
  grads.foldl (fun s g => adamwRowStep sqrtQ lr beta1 beta2 eps wd g s) st

theorem adamwRowStep_zero (sqrtQ : ℚ → ℚ) (lr beta1 beta2 eps wd : ℚ) (E t : ℕ) :
    adamwRowStep sqrtQ lr beta1 beta2 eps wd (zeroVec E)
      ⟨zeroVec E, zeroVec E, zeroVec E, t⟩ = ⟨zeroVec E, zeroVec E, zeroVec E, t + 1⟩ := by
  simp [adamwRowStep, zeroVec, List.zipWith_replicate, List.map_replicate,
    List.zip_replicate]

theorem adamwRowRun_zero (sqrtQ : ℚ → ℚ) (lr beta1 beta2 eps wd : ℚ) (E : ℕ) :
    ∀ (grads : List (List ℚ)) (t : ℕ), (∀ g ∈ grads, g = zeroVec E) →
      adamwRowRun sqrtQ lr beta1 beta2 eps wd grads ⟨zeroVec E, zeroVec E, zeroVec E, t⟩
        = ⟨zeroVec E, zeroVec E, zeroVec E, t + grads.length⟩
  | [], t, _ => by simp [adamwRowRun]
  | g :: gs, t, hg => by
      have hghead : g = zeroVec E := hg g (by simp)
      have ih := adamwRowRun_zero sqrtQ lr beta1 beta2 eps wd E gs (t + 1)
        (fun x hx => hg x (by simp [hx]))
      simp only [adamwRowRun, List.foldl_cons] at ih ⊢
      rw [hghead, adamwRowStep_zero, ih, List.length_cons]
      congr 1
      omega

/-- Claim C5: for every auxiliary feature, the embedding vector at the
feature's padding index is invariant across training: the row starts as the
zero vector (the embedding framework's padding contract), its gradient is
zero on every step, and an arbitrary sequence of AdamW steps — including
decoupled weight decay and bias correction, for any hyperparameters and any
square-root function — leaves it equal to its initial value. -/
theorem paddingEmbedding_invariant (sqrtQ : ℚ → ℚ) (lr beta1 beta2 eps wd : ℚ)
    (E : ℕ) (grads : List (List ℚ)) (hg : ∀ g ∈ grads, g = zeroVec E) :
    (adamwRowRun sqrtQ lr beta1 beta2 eps wd grads
        ⟨zeroVec E, zeroVec E, zeroVec E, 0⟩).theta
      = (⟨zeroVec E, zeroVec E, zeroVec E, 0⟩ : AdamWRow).theta := by
  rw [adamwRowRun_zero sqrtQ lr beta1 beta2 eps wd E grads 0 hg]

/-- Witness for C5: two steps with PyTorch-default hyperparameters on a
width-2 row. -/
theorem paddingEmbedding_invariant_witness :
    (adamwRowRun (fun x => x) (1/500) (9/10) (999/1000) (1/100000000) (1/100)
        [zeroVec 2, zeroVec 2] ⟨zeroVec 2, zeroVec 2, zeroVec 2, 0⟩).theta
      = (⟨zeroVec 2, zeroVec 2, zeroVec 2, 0⟩ : AdamWRow).theta :=
  paddingEmbedding_invariant (fun x => x) (1/500) (9/10) (999/1000) (1/100000000)
    (1/100) 2 [zeroVec 2, zeroVec 2] (by simp)

/-!
Finally, `BertController.validate` (src/bert.py:203-224), for a model with no
auxiliary features and batch size 1.  Each dev example carries the encoder's
pooled vector (the encoder is deterministic under `torch.no_grad()` once
`model.eval()` has switched its internal dropout modules off) and its label.
The head, however, computes `self.classifier(F.dropout(pooled_output,
p=self.dropout))` (src/bert.py:147): the functional `F.dropout` defaults to
`training=True`, which `model.eval()` does not change, so each forward pass
consumes fresh dropout randomness — embedded as a stream of keep masks
indexed by a position that advances once per forward call.
-/

/-- Index of the first maximal entry of a logits vector (`torch.argmax`). -/
def argmaxIdx : List ℚ → ℕ
  | [] => 0
  | [_] => 0
  | x :: y :: xs =>
    let r := argmaxIdx (y :: xs)
    if x < (y :: xs).getD r 0 then r + 1 else 0

/-- Controller-visible state: the model's `training` flag, the classifier
parameters, and the backend RNG position. -/
structure ValCtrl where
  training : Bool
  W : List (List ℚ)
  bvec : List ℚ
  rngPos : ℕ
deriving DecidableEq

/-- The body of `validate(dev_dataset)` (src/bert.py:203-224): switch to eval mode, run
every batch through the model, count exact argmax matches, return accuracy
`num_correct / len(dev_dataset)` and the post-call state.  No optimiser step
runs, so the parameters `W`, `bvec` pass through unchanged; the `training`
flag is left at `false`; the RNG advances by one dropout draw per batch. -/
def validateModel (stream : ℕ → List Bool) (p : ℚ) (dev : List (List ℚ × ℕ))
    (st : ValCtrl) : ℚ × ValCtrl :=
  let res := dev.foldl
      (fun (acc : ℕ × ℕ) ex =>
        let logits := linearApply st.W st.bvec (dropoutFn p (stream acc.2) ex.1)
        (acc.1 + (if argmaxIdx logits = ex.2 then 1 else 0), acc.2 + 1))
      (0, st.rngPos)
  ((res.1 : ℚ) / (dev.length : ℚ), ⟨false, st.W, st.bvec, res.2⟩)

/-- Claim C4 is contradicted by the code: `validate` does leave the
parameters unchanged and does leave the model in eval mode, but because
`F.dropout` is called with its default `training=True` (src/bert.py:147),
two consecutive `validate` calls on identical data draw different dropout
masks and here return accuracies 1 and 0 — not bit-identical, and dropout is
not the identity during validation.  Concretely: dropout p=1/2, one dev
example with pooled vector `[1]` and label 0, classifier rows `[1]`, `[-1]`
with biases `[0, 1/10]`, keep masks `[true]` then `[false]`. -/
theorem validate_dropout_nondeterminism :
    (validateModel (fun t => if t = 0 then [true] else [false]) (1/2) [([1], 0)]
        ⟨true, [[1], [-1]], [0, 1/10], 0⟩).1 = 1
    ∧ (validateModel (fun t => if t = 0 then [true] else [false]) (1/2) [([1], 0)]
        (validateModel (fun t => if t = 0 then [true] else [false]) (1/2) [([1], 0)]
          ⟨true, [[1], [-1]], [0, 1/10], 0⟩).2).1 = 0
    ∧ (validateModel (fun t => if t = 0 then [true] else [false]) (1/2) [([1], 0)]
        ⟨true, [[1], [-1]], [0, 1/10], 0⟩).2.W = [[1], [-1]]
    ∧ (validateModel (fun t => if t = 0 then [true] else [false]) (1/2) [([1], 0)]
        ⟨true, [[1], [-1]], [0, 1/10], 0⟩).2.bvec = [0, 1/10]
    ∧ (validateModel (fun t => if t = 0 then [true] else [false]) (1/2) [([1], 0)]
        ⟨true, [[1], [-1]], [0, 1/10], 0⟩).2.training = false := by
  refine ⟨?_, ?_, rfl, rfl, rfl⟩ <;>
    norm_num [validateModel, linearApply, dropoutFn, dotQ, argmaxIdx]
